import Mathlib

/-!
# Derivative.h : the store of adjoint Funcs

A shallow embedding of `struct Derivative` from `src/Derivative.h`
(namespace `Halide`): the map `adjoints`, the two `operator()` overloads and
`funcs`.

* `int` is embedded as `Int`.  The only arithmetic on an `int` in the header is
  `func.num_update_definitions() - 1` and `i--` inside `funcs`, which stay
  inside the 32-bit range for every non-negative number of update definitions,
  so no wrap-around is modelled.
* `std::map<FuncKey, Func>` is embedded as a list of key/value entries read
  through `find`, the embedding of `std::map::find`.
* A failed `assert` / `internal_assert` is embedded as the `Except.error`
  outcome: the call returns no value.
-/

set_option autoImplicit false

namespace Halide

/-- Modelled from the spec: the class `Func` of `Func.h`, which is not part of
the source at hand.  `Derivative.h` observes a `Func` only through `name()` and
`num_update_definitions()` (an `int`). -/
structure Func where
  name : String
  num_update_definitions : Int
  deriving DecidableEq, Repr

/-- Modelled from the spec: the class `Buffer<>`, which is not part of the
source at hand.  `Derivative.h` observes a buffer only through `name()`. -/
structure Buffer where
  name : String
  deriving DecidableEq, Repr

/-- The alias `using FuncKey = std::pair<std::string, int>`: function name and update id,
the initial definition having update id `-1`. -/
abbrev FuncKey := String × Int

/-- The two ways a call into `Derivative` stops without a value. -/
inductive Failure where
  /-- The `assert(it != adjoints.end())` of `operator()` does not hold. -/
  | assertion : Failure
  /-- The `internal_assert(it != adjoints.end())` of `funcs` does not hold; the
  message names `k.first` and `k.second`. -/
  | internalAssert (first : String) (second : Int) : Failure
  deriving DecidableEq, Repr

/-- The lookup `std::map<FuncKey, Func>::find`: the value stored under `key`, `none`
standing for the iterator `end()`. -/
def find : List (FuncKey × Func) → FuncKey → Option Func
  | [], _ => none
  | (k, v) :: rest, key => if k = key then some v else find rest key

/-- The `struct Derivative`: the helper structure storing the adjoint Funcs. -/
structure Derivative where
  adjoints : List (FuncKey × Func)
  deriving DecidableEq, Repr

namespace Derivative

/-- The overload `Func operator()(const Func &func, int update_id = -1, bool bounded = true)
const`: the entry of `adjoints` under the name of `func`, followed by
`"_unbounded"` when `bounded` is false, and `update_id`; the `assert` fails when
there is none. -/
def call (d : Derivative) (func : Func) (update_id : Int) (bounded : Bool) :
    Except Failure Func :=
  let name := func.name
  let name := if !bounded then name ++ "_unbounded" else name
  match find d.adjoints (name, update_id) with
  | none => Except.error Failure.assertion
  | some second => Except.ok second

/-- The call `d(func)`: `operator()` with both default arguments,
`update_id = -1` and `bounded = true`. -/
def callDefault (d : Derivative) (func : Func) : Except Failure Func :=
  call d func (-1) true

/-- The overload `Func operator()(const Buffer<> &buffer) const`: the entry of
`adjoints` under the name of `buffer` and `-1`; the `assert` fails when there is
none. -/
def callBuffer (d : Derivative) (buffer : Buffer) : Except Failure Func :=
  match find d.adjoints (buffer.name, -1) with
  | none => Except.error Failure.assertion
  | some second => Except.ok second

/-- The `for` loop of `funcs`, entered with loop variable `i`: the state is the
two keys `k`, `k_unbounded` and the vector `result`.  The loop variable drops
by one per round and the loop is left once `i >= -1` fails. -/
def funcsLoop (adjoints : List (FuncKey × Func)) (k k_unbounded : FuncKey)
    (result : List Func) (i : Int) : Except Failure (List Func) :=
  if i ≥ -1 then
    let k : FuncKey := (k.1, i)
    let k_unbounded : FuncKey := (k_unbounded.1, i)
    match find adjoints k with
    | none => Except.error (Failure.internalAssert k.1 k.2)
    | some second =>
      let result := result ++ [second]
      match find adjoints k_unbounded with
      | some second => funcsLoop adjoints k k_unbounded (result ++ [second]) (i - 1)
      | none => funcsLoop adjoints k k_unbounded result (i - 1)
  else
    Except.ok result
termination_by (i + 2).toNat
decreasing_by all_goals omega

/-- The method `std::vector<Func> funcs(const Func &func) const`: the entire chain of new
synthesized Funcs that compute the derivative of a given user-written Func. -/
def funcs (d : Derivative) (func : Func) : Except Failure (List Func) :=
  let result : List Func := []
  let k : FuncKey := (func.name, -1)
  let k_unbounded : FuncKey := (k.1 ++ "_unbounded", k.2)
  funcsLoop d.adjoints k k_unbounded result (func.num_update_definitions - 1)

end Derivative

/-- The key that `operator()(const Func &, int, bool)` hands to `adjoints.find`
for the triple of a Func name, an update id and the flag `bounded`: the local
`name` after the `if (!bounded)` statement, paired with `update_id`. -/
def lookupKey (name : String) (update_id : Int) (bounded : Bool) : FuncKey :=
  let name := if !bounded then name ++ "_unbounded" else name
  (name, update_id)

/-- The definition indices of a Func with `k` update definitions, in the order
in which `funcs` visits them: `k - 1, ..., 0, -1`. -/
def visitOrder (k : Int) : List Int :=
  (List.range (k + 1).toNat).reverse.map (fun (j : Nat) => (j : Int) - 1)

/-- What one round of the loop of `funcs` appends for definition index `i`: the
entry stored under the bounded key, then the entry stored under the unbounded
key when there is one. -/
def entriesAt (adjoints : List (FuncKey × Func)) (name : String) (i : Int) : List Func :=
  (find adjoints (name, i)).toList ++ (find adjoints (name ++ "_unbounded", i)).toList

/-- The chain of `funcs` worded through the single-lookup accessor: there is a
chain when `d(f, i, true)` succeeds for every index `i` from `-1` to `k - 1`,
and it is built by visiting `i = k - 1, ..., -1` and emitting `d(f, i, true)`
followed by `d(f, i, false)` whenever that unbounded lookup succeeds. -/
def chainByCall (d : Derivative) (f : Func) : Option (List Func) :=
  if (visitOrder f.num_update_definitions).all
      (fun i => (Derivative.call d f i true).toOption.isSome) then
    some ((visitOrder f.num_update_definitions).flatMap (fun i =>
      (Derivative.call d f i true).toOption.toList ++
        (Derivative.call d f i false).toOption.toList))
  else
    none

namespace Derivative

theorem funcsLoop_exit (adjoints : List (FuncKey × Func)) (k k_unbounded : FuncKey)
    (result : List Func) (i : Int) (h : i < -1) :
    funcsLoop adjoints k k_unbounded result i = Except.ok result := by
  rw [funcsLoop]
  have : ¬ (i ≥ -1) := by omega
  simp [this]

theorem funcsLoop_round (adjoints : List (FuncKey × Func)) (k k_unbounded : FuncKey)
    (result : List Func) (i : Int) (h : -1 ≤ i) :
    funcsLoop adjoints k k_unbounded result i =
      match find adjoints (k.1, i) with
      | none => Except.error (Failure.internalAssert k.1 i)
      | some second =>
        funcsLoop adjoints (k.1, i) (k_unbounded.1, i)
          (result ++ [second] ++ (find adjoints (k_unbounded.1, i)).toList) (i - 1) := by
  rw [funcsLoop]
  have : i ≥ -1 := h
  simp only [this, if_true]
  cases find adjoints (k.1, i) with
  | none => rfl
  | some a =>
    cases find adjoints (k_unbounded.1, i) with
    | none => simp
    | some b => simp

/-- The rounds of the loop when every bounded key is stored: the loop entered
at `i = n - 2` appends the entries of the indices `n - 2, ..., -1` in turn. -/
theorem funcsLoop_ok (adjoints : List (FuncKey × Func)) (n : Nat) :
    ∀ (k k_unbounded : FuncKey) (result : List Func),
      (∀ i : Int, -1 ≤ i → i < (n : Int) - 1 → find adjoints (k.1, i) ≠ none) →
      funcsLoop adjoints k k_unbounded result ((n : Int) - 2) =
        Except.ok (result ++ ((List.range n).reverse.map (fun (j : Nat) => (j : Int) - 1)).flatMap
          (fun i => (find adjoints (k.1, i)).toList ++
            (find adjoints (k_unbounded.1, i)).toList)) := by
  induction n with
  | zero =>
    intro k k_unbounded result _
    rw [funcsLoop_exit _ _ _ _ _ (by omega)]
    simp
  | succ m ih =>
    intro k k_unbounded result hall
    have hi : ((m + 1 : Nat) : Int) - 2 = (m : Int) - 1 := by omega
    rw [hi, funcsLoop_round _ _ _ _ _ (by omega)]
    have hm := hall ((m : Int) - 1) (by omega) (by omega)
    cases hf : find adjoints (k.1, (m : Int) - 1) with
    | none => exact absurd hf hm
    | some a =>
      have hi2 : (m : Int) - 1 - 1 = (m : Int) - 2 := by omega
      simp only [hi2]
      rw [ih (k.1, (m : Int) - 1) (k_unbounded.1, (m : Int) - 1) _
        (fun i h1 h2 => hall i h1 (by omega))]
      simp [List.range_succ, hf, List.append_assoc]

/-- The rounds of the loop when some bounded key is missing: the loop stops at
the largest missing index and returns no vector. -/
theorem funcsLoop_error (adjoints : List (FuncKey × Func)) (n : Nat) :
    ∀ (k k_unbounded : FuncKey) (result : List Func),
      (∃ i : Int, -1 ≤ i ∧ i < (n : Int) - 1 ∧ find adjoints (k.1, i) = none) →
      ∃ i : Int, -1 ≤ i ∧ i < (n : Int) - 1 ∧ find adjoints (k.1, i) = none ∧
        (∀ j : Int, i < j → j < (n : Int) - 1 → find adjoints (k.1, j) ≠ none) ∧
        funcsLoop adjoints k k_unbounded result ((n : Int) - 2) =
          Except.error (Failure.internalAssert k.1 i) := by
  induction n with
  | zero =>
    intro k k_unbounded result h
    obtain ⟨i, h1, h2, _⟩ := h
    exact absurd h2 (by omega)
  | succ m ih =>
    intro k k_unbounded result h
    have hi : ((m + 1 : Nat) : Int) - 2 = (m : Int) - 1 := by omega
    rw [hi, funcsLoop_round _ _ _ _ _ (by omega)]
    cases hf : find adjoints (k.1, (m : Int) - 1) with
    | none =>
      exact ⟨(m : Int) - 1, by omega, by omega, hf, fun j h1 h2 => absurd h2 (by omega), rfl⟩
    | some a =>
      have hi2 : (m : Int) - 1 - 1 = (m : Int) - 2 := by omega
      simp only [hi2]
      obtain ⟨i, h1, h2, h3⟩ := h
      have hne : i ≠ (m : Int) - 1 := by
        intro he
        rw [he, hf] at h3
        exact Option.noConfusion h3
      obtain ⟨i0, g1, g2, g3, g4, g5⟩ :=
        ih (k.1, (m : Int) - 1) (k_unbounded.1, (m : Int) - 1)
          (result ++ [a] ++ (find adjoints (k_unbounded.1, (m : Int) - 1)).toList)
          ⟨i, h1, by omega, h3⟩
      refine ⟨i0, g1, by omega, g3, ?_, g5⟩
      intro j hj1 hj2
      by_cases hj : j = (m : Int) - 1
      · rw [hj, hf]; exact Option.noConfusion
      · exact g4 j hj1 (by omega)

/-- The outcome of `funcs` when every bounded key of `func` is stored. -/
theorem funcs_ok (d : Derivative) (func : Func)
    (h : ∀ i : Int, -1 ≤ i → i < func.num_update_definitions →
      find d.adjoints (func.name, i) ≠ none) :
    funcs d func =
      Except.ok ((visitOrder func.num_update_definitions).flatMap
        (entriesAt d.adjoints func.name)) := by
  unfold funcs visitOrder
  by_cases hk : -1 ≤ func.num_update_definitions
  · have hn : (((func.num_update_definitions + 1).toNat : Nat) : Int) - 2
        = func.num_update_definitions - 1 := by omega
    have key := funcsLoop_ok d.adjoints (func.num_update_definitions + 1).toNat
      (func.name, -1) (func.name ++ "_unbounded", -1) []
      (fun i h1 h2 => h i h1 (by omega))
    rw [hn] at key
    simp only [key, List.nil_append]
    rfl
  · have h0 : (func.num_update_definitions + 1).toNat = 0 := by omega
    rw [funcsLoop_exit _ _ _ _ _ (by omega), h0]
    rfl

/-- The outcome of `funcs` when some bounded key of `func` is missing: the
failed `internal_assert` at the largest missing index. -/
theorem funcs_error (d : Derivative) (func : Func)
    (h : ∃ i : Int, -1 ≤ i ∧ i < func.num_update_definitions ∧
      find d.adjoints (func.name, i) = none) :
    ∃ i : Int, -1 ≤ i ∧ i < func.num_update_definitions ∧
      find d.adjoints (func.name, i) = none ∧
      (∀ j : Int, i < j → j < func.num_update_definitions →
        find d.adjoints (func.name, j) ≠ none) ∧
      funcs d func = Except.error (Failure.internalAssert func.name i) := by
  obtain ⟨i, h1, h2, h3⟩ := h
  have hn : (((func.num_update_definitions + 1).toNat : Nat) : Int) - 2
      = func.num_update_definitions - 1 := by omega
  obtain ⟨i0, g1, g2, g3, g4, g5⟩ :=
    funcsLoop_error d.adjoints (func.num_update_definitions + 1).toNat
      (func.name, -1) (func.name ++ "_unbounded", -1) [] ⟨i, h1, by omega, h3⟩
  rw [hn] at g5
  exact ⟨i0, g1, by omega, g3, fun j hj1 hj2 => g4 j hj1 (by omega), g5⟩

/-- The loop of `funcs` reads `adjoints` only at the two keys of the indices it
visits: two maps that agree there give the same outcome. -/
theorem funcsLoop_congr (adj1 adj2 : List (FuncKey × Func)) (n : Nat) :
    ∀ (k k_unbounded : FuncKey) (result : List Func),
      (∀ i : Int, -1 ≤ i → i < (n : Int) - 1 →
        find adj1 (k.1, i) = find adj2 (k.1, i) ∧
        find adj1 (k_unbounded.1, i) = find adj2 (k_unbounded.1, i)) →
      funcsLoop adj1 k k_unbounded result ((n : Int) - 2) =
        funcsLoop adj2 k k_unbounded result ((n : Int) - 2) := by
  induction n with
  | zero =>
    intro k k_unbounded result _
    rw [funcsLoop_exit _ _ _ _ _ (by omega), funcsLoop_exit _ _ _ _ _ (by omega)]
  | succ m ih =>
    intro k k_unbounded result hall
    have hi : ((m + 1 : Nat) : Int) - 2 = (m : Int) - 1 := by omega
    rw [hi, funcsLoop_round _ _ _ _ _ (by omega), funcsLoop_round _ _ _ _ _ (by omega)]
    obtain ⟨e1, e2⟩ := hall ((m : Int) - 1) (by omega) (by omega)
    rw [e1, e2]
    cases find adj2 (k.1, (m : Int) - 1) with
    | none => rfl
    | some a =>
      have hi2 : (m : Int) - 1 - 1 = (m : Int) - 2 := by omega
      simp only [hi2]
      exact ih (k.1, (m : Int) - 1) (k_unbounded.1, (m : Int) - 1) _
        (fun i h1 h2 => hall i h1 (by omega))

/-- Two `Derivative`s that agree on the bounded and the unbounded keys of
`func`, at the indices from `-1` to the last update, give the same `funcs`. -/
theorem funcs_congr (d1 d2 : Derivative) (func : Func)
    (h : ∀ i : Int, -1 ≤ i → i < func.num_update_definitions →
      find d1.adjoints (func.name, i) = find d2.adjoints (func.name, i) ∧
      find d1.adjoints (func.name ++ "_unbounded", i)
        = find d2.adjoints (func.name ++ "_unbounded", i)) :
    funcs d1 func = funcs d2 func := by
  unfold funcs
  by_cases hk : -1 ≤ func.num_update_definitions
  · have hn : (((func.num_update_definitions + 1).toNat : Nat) : Int) - 2
        = func.num_update_definitions - 1 := by omega
    have key := funcsLoop_congr d1.adjoints d2.adjoints
      (func.num_update_definitions + 1).toNat
      (func.name, -1) (func.name ++ "_unbounded", -1) []
      (fun i h1 h2 => h i h1 (by omega))
    rw [hn] at key
    exact key
  · rw [funcsLoop_exit _ _ _ _ _ (by omega), funcsLoop_exit _ _ _ _ _ (by omega)]

/-- The outcome of `funcs` is decided by the bounded keys alone: it returns a
vector exactly when none of them is missing. -/
theorem funcs_ok_iff (d : Derivative) (func : Func) :
    (∃ l, funcs d func = Except.ok l) ↔
      ∀ i : Int, -1 ≤ i → i < func.num_update_definitions →
        find d.adjoints (func.name, i) ≠ none := by
  constructor
  · rintro ⟨l, hl⟩ i h1 h2 hnone
    obtain ⟨i0, _, _, _, _, herr⟩ := funcs_error d func ⟨i, h1, h2, hnone⟩
    rw [hl] at herr
    exact Except.noConfusion herr
  · intro h
    exact ⟨_, funcs_ok d func h⟩

theorem call_bounded_toOption (d : Derivative) (func : Func) (i : Int) :
    (call d func i true).toOption = find d.adjoints (func.name, i) := by
  simp only [call, Bool.not_true, Bool.false_eq_true, if_false]
  cases find d.adjoints (func.name, i) <;> rfl

theorem call_unbounded_toOption (d : Derivative) (func : Func) (i : Int) :
    (call d func i false).toOption = find d.adjoints (func.name ++ "_unbounded", i) := by
  simp only [call, Bool.not_false, if_true]
  cases find d.adjoints (func.name ++ "_unbounded", i) <;> rfl

/-- The `operator()` on a Func reads `adjoints` at `lookupKey` and nowhere else. -/
theorem call_eq_find (d : Derivative) (func : Func) (update_id : Int) (bounded : Bool) :
    call d func update_id bounded =
      match find d.adjoints (lookupKey func.name update_id bounded) with
      | none => Except.error Failure.assertion
      | some second => Except.ok second := rfl

end Derivative
end Halide

namespace Halide

theorem mem_visitOrder (k i : Int) : i ∈ visitOrder k ↔ -1 ≤ i ∧ i < k := by
  unfold visitOrder
  simp only [List.mem_map, List.mem_reverse, List.mem_range]
  constructor
  · rintro ⟨j, hj, rfl⟩
    omega
  · rintro ⟨h1, h2⟩
    exact ⟨(i + 1).toNat, by omega, by omega⟩

theorem visitOrder_descending (k : Int) : (visitOrder k).Pairwise (fun a b => b < a) := by
  unfold visitOrder
  rw [List.pairwise_map, List.pairwise_reverse]
  have h := List.pairwise_lt_range (k + 1).toNat
  exact h.imp (fun {a b} hab => by omega)

theorem visitOrder_of_nonneg (k : Int) (hk : 0 ≤ k) :
    visitOrder k = (k - 1) :: visitOrder (k - 1) := by
  unfold visitOrder
  have h1 : (k + 1).toNat = (k - 1 + 1).toNat + 1 := by omega
  rw [h1, List.range_succ, List.reverse_append]
  simp only [List.reverse_cons, List.reverse_nil, List.nil_append, List.singleton_append,
    List.map_cons, List.cons.injEq, and_true]
  omega

theorem visitOrder_length (k : Int) : (visitOrder k).length = (k + 1).toNat := by
  simp [visitOrder]

theorem visitOrder_getLast (k : Int) (hk : 0 ≤ k) : (visitOrder k).getLast? = some (-1) := by
  unfold visitOrder
  have h1 : (k + 1).toNat = k.toNat + 1 := by omega
  rw [h1, List.range_succ_eq_map]
  simp

theorem visitOrder_toFinset (k : Int) : (visitOrder k).toFinset = Finset.Icc (-1) (k - 1) := by
  ext i
  rw [List.mem_toFinset, mem_visitOrder, Finset.mem_Icc]
  omega

/-- The number of entries the rounds for the indices `ids` append, when every
bounded key is stored: one per index and one more per stored unbounded key. -/
theorem length_entries (adjoints : List (FuncKey × Func)) (name : String) (ids : List Int)
    (h : ∀ i ∈ ids, find adjoints (name, i) ≠ none) :
    (ids.flatMap (entriesAt adjoints name)).length =
      ids.length +
        (ids.filter (fun i => (find adjoints (name ++ "_unbounded", i)).isSome)).length := by
  induction ids with
  | nil => rfl
  | cons i rest ih =>
    have hi := h i (List.mem_cons_self _ _)
    have hrest := ih (fun j hj => h j (List.mem_cons_of_mem _ hj))
    rw [List.flatMap_cons, List.length_append, hrest]
    unfold entriesAt
    cases hb : find adjoints (name, i) with
    | none => exact absurd hb hi
    | some a =>
      cases hu : find adjoints (name ++ "_unbounded", i) with
      | none => simp [List.filter_cons, hu]; omega
      | some b => simp [List.filter_cons, hu]; omega

theorem append_right_cancel (a b s : String) (h : a ++ s = b ++ s) : a = b := by
  have h2 : (a ++ s).data = (b ++ s).data := by rw [h]
  rw [String.data_append, String.data_append] at h2
  exact String.ext (List.append_cancel_right h2)

end Halide

namespace Halide.Derivative

/-- C1: `d(f, update_id, bounded)` succeeds if and only if `d.adjoints` holds the
key `(n, update_id)`, where `n` is `f.name()` when `bounded` and `f.name()`
followed by `"_unbounded"` otherwise; on success the value returned is exactly
the Func stored under that key, on failure it is the failed assertion; and
`d(f)` with the default arguments is the lookup of `(f.name(), -1)`. -/
theorem call_succeeds_iff_key_stored (d : Derivative) (f : Func) (update_id : Int)
    (bounded : Bool) :
    ((∃ v, call d f update_id bounded = Except.ok v) ↔
        find d.adjoints
          (if bounded then f.name else f.name ++ "_unbounded", update_id) ≠ none) ∧
    (∀ v, call d f update_id bounded = Except.ok v ↔
        find d.adjoints
          (if bounded then f.name else f.name ++ "_unbounded", update_id) = some v) ∧
    (call d f update_id bounded = Except.error Failure.assertion ↔
        find d.adjoints
          (if bounded then f.name else f.name ++ "_unbounded", update_id) = none) ∧
    callDefault d f = call d f (-1) true ∧
    (∀ v, callDefault d f = Except.ok v ↔ find d.adjoints (f.name, -1) = some v) ∧
    (callDefault d f = Except.error Failure.assertion ↔
        find d.adjoints (f.name, -1) = none) := by
  cases bounded <;>
    simp only [call, callDefault, Bool.not_true, Bool.not_false, if_true, if_false,
      Bool.false_eq_true] <;>
    cases find d.adjoints (f.name ++ "_unbounded", update_id) <;>
    cases find d.adjoints (f.name, update_id) <;>
    cases find d.adjoints (f.name, -1) <;> simp

/-- C4: `d(b)` succeeds if and only if `d.adjoints` holds the key
`(b.name(), -1)` and then returns the Func stored there; hence for every Func
`f` named like the buffer, `d(b)` and `d(f)` have the same outcome. -/
theorem callBuffer_is_lookup_of_initial_key (d : Derivative) (b : Buffer) :
    ((∃ v, callBuffer d b = Except.ok v) ↔ find d.adjoints (b.name, -1) ≠ none) ∧
    (∀ v, callBuffer d b = Except.ok v ↔ find d.adjoints (b.name, -1) = some v) ∧
    (callBuffer d b = Except.error Failure.assertion ↔
        find d.adjoints (b.name, -1) = none) ∧
    (∀ f : Func, f.name = b.name →
        callBuffer d b = callDefault d f ∧ callBuffer d b = call d f (-1) true) := by
  refine ⟨?_, ?_, ?_, ?_⟩
  · simp only [callBuffer]
    cases find d.adjoints (b.name, -1) <;> simp
  · simp only [callBuffer]
    cases find d.adjoints (b.name, -1) <;> simp
  · simp only [callBuffer]
    cases find d.adjoints (b.name, -1) <;> simp
  · intro f hf
    simp [callBuffer, callDefault, call, hf]

end Halide.Derivative

namespace Halide.Derivative

/-- C5 (counterexample): the bounded lookup of a Func named `"f_unbounded"` and the
unbounded lookup of a Func named `"f"` are two distinct triples that consult the
same key, so that they return the same stored Func from every `Derivative`. -/
theorem lookupKey_collision :
    (("f_unbounded", (-1 : Int), true) : String × Int × Bool) ≠ ("f", -1, false) ∧
    lookupKey "f_unbounded" (-1) true = lookupKey "f" (-1) false ∧
    (∀ d : Derivative, call d ⟨"f_unbounded", 0⟩ (-1) true = call d ⟨"f", 0⟩ (-1) false) ∧
    call ⟨[(("f_unbounded", -1), ⟨"g", 0⟩)]⟩ ⟨"f_unbounded", 0⟩ (-1) true
      = Except.ok ⟨"g", 0⟩ ∧
    call ⟨[(("f_unbounded", -1), ⟨"g", 0⟩)]⟩ ⟨"f", 0⟩ (-1) false = Except.ok ⟨"g", 0⟩ := by
  refine ⟨by decide, by decide, ?_, ?_, ?_⟩
  · intro d
    have h : lookupKey "f_unbounded" (-1) true = lookupKey "f" (-1) false := by decide
    rw [call_eq_find, call_eq_find]
    simp only [h]
  · simp [call, find]
  · simp [call, find]

/-- C5 (amended): two triples of a name, an update id and the flag `bounded`
are looked up under the same key exactly when they are the same triple, or they
have the same update id, opposite flags, and the name of the bounded one is the
name of the unbounded one followed by `"_unbounded"`. -/
theorem lookupKey_eq_iff (n1 n2 : String) (i1 i2 : Int) (b1 b2 : Bool) :
    lookupKey n1 i1 b1 = lookupKey n2 i2 b2 ↔
      (n1 = n2 ∧ i1 = i2 ∧ b1 = b2) ∨
      (i1 = i2 ∧ b1 = true ∧ b2 = false ∧ n1 = n2 ++ "_unbounded") ∨
      (i1 = i2 ∧ b1 = false ∧ b2 = true ∧ n2 = n1 ++ "_unbounded") := by
  cases b1 <;> cases b2
  · show (n1 ++ "_unbounded", i1) = (n2 ++ "_unbounded", i2) ↔ _
    rw [Prod.mk.injEq]
    constructor
    · rintro ⟨h1, h2⟩
      exact Or.inl ⟨append_right_cancel _ _ _ h1, h2, rfl⟩
    · rintro (⟨h1, h2, _⟩ | ⟨_, h, _⟩ | ⟨_, _, h, _⟩)
      · exact ⟨by rw [h1], h2⟩
      · exact absurd h (by decide)
      · exact absurd h (by decide)
  · show (n1 ++ "_unbounded", i1) = (n2, i2) ↔ _
    rw [Prod.mk.injEq]
    constructor
    · rintro ⟨h1, h2⟩
      exact Or.inr (Or.inr ⟨h2, rfl, rfl, h1.symm⟩)
    · rintro (⟨_, _, h⟩ | ⟨_, h, _⟩ | ⟨h2, _, _, h1⟩)
      · exact absurd h (by decide)
      · exact absurd h (by decide)
      · exact ⟨h1.symm, h2⟩
  · show (n1, i1) = (n2 ++ "_unbounded", i2) ↔ _
    rw [Prod.mk.injEq]
    constructor
    · rintro ⟨h1, h2⟩
      exact Or.inr (Or.inl ⟨h2, rfl, rfl, h1⟩)
    · rintro (⟨_, _, h⟩ | ⟨h2, _, _, h1⟩ | ⟨_, h, _⟩)
      · exact absurd h (by decide)
      · exact ⟨h1, h2⟩
      · exact absurd h (by decide)
  · show (n1, i1) = (n2, i2) ↔ _
    rw [Prod.mk.injEq]
    constructor
    · rintro ⟨h1, h2⟩
      exact Or.inl ⟨h1, h2, rfl⟩
    · rintro (⟨h1, h2, _⟩ | ⟨_, _, h, _⟩ | ⟨_, h, _⟩)
      · exact ⟨h1, h2⟩
      · exact absurd h (by decide)
      · exact absurd h (by decide)

/-- C6 (counterexample): a Func with no update definition and a `Derivative`
that stores an entry under `("f", 5)`: the lookup with the out-of-range update
id `5` succeeds and returns the stored Func. -/
theorem call_out_of_range_succeeds :
    (5 : Int) ≥ (⟨"f", 0⟩ : Func).num_update_definitions ∧
    call ⟨[(("f", 5), ⟨"g", 0⟩)]⟩ ⟨"f", 0⟩ 5 true = Except.ok ⟨"g", 0⟩ := by
  refine ⟨by decide, ?_⟩
  simp [call, find]

/-- C6 (amended): for a `Derivative` that stores entries for `f.name()` only
under update ids from `-1` to `k - 1`, `k` the number of update definitions of
`f`, the lookup `d(f, update_id)` with `update_id < -1` or `update_id >= k`
fails on its assertion and returns no Func. -/
theorem call_out_of_range_fails (d : Derivative) (f : Func) (update_id : Int)
    (hstored : ∀ i : Int, find d.adjoints (f.name, i) ≠ none →
      -1 ≤ i ∧ i < f.num_update_definitions)
    (hrange : update_id < -1 ∨ update_id ≥ f.num_update_definitions) :
    call d f update_id true = Except.error Failure.assertion ∧
    ∀ v, call d f update_id true ≠ Except.ok v := by
  have hnone : find d.adjoints (f.name, update_id) = none := by
    by_contra hne
    have := hstored update_id hne
    omega
  simp [call, hnone]

theorem call_out_of_range_fails_witness :
    call ⟨[(("f", -1), ⟨"g", 0⟩), (("f", 0), ⟨"h", 0⟩)]⟩ ⟨"f", 1⟩ 1 true
      = Except.error Failure.assertion ∧
    ∀ v, call ⟨[(("f", -1), ⟨"g", 0⟩), (("f", 0), ⟨"h", 0⟩)]⟩ ⟨"f", 1⟩ 1 true
      ≠ Except.ok v :=
  call_out_of_range_fails ⟨[(("f", -1), ⟨"g", 0⟩), (("f", 0), ⟨"h", 0⟩)]⟩ ⟨"f", 1⟩ 1
    (by
      intro i hi
      simp only [find, Prod.mk.injEq, true_and] at hi
      by_cases h1 : (-1 : Int) = i
      · subst h1; decide
      · by_cases h2 : (0 : Int) = i
        · subst h2; decide
        · simp [h1, h2] at hi)
    (Or.inr (by decide))

end Halide.Derivative

namespace Halide.Derivative

/-- C2: when `f` has `k >= 0` update definitions and `d.funcs(f)` returns a
vector, that vector is the concatenation, for `i` running from `k - 1` down to
`-1`, of the entry stored under `(f.name(), i)` followed by the entry stored
under `(f.name() + "_unbounded", i)` when there is one.  The indices visited are
exactly those from `-1` to `k - 1`, in strictly descending order, starting at
`k - 1` and ending at `-1`. -/
theorem funcs_eq_concat_of_blocks (d : Derivative) (f : Func) (l : List Func)
    (hk : 0 ≤ f.num_update_definitions) (hs : funcs d f = Except.ok l) :
    (∃ bounded : Int → Func,
      (∀ i : Int, -1 ≤ i → i ≤ f.num_update_definitions - 1 →
        find d.adjoints (f.name, i) = some (bounded i)) ∧
      l = (visitOrder f.num_update_definitions).flatMap (fun i =>
        [bounded i] ++ (find d.adjoints (f.name ++ "_unbounded", i)).toList)) ∧
    (∀ i : Int, i ∈ visitOrder f.num_update_definitions ↔
      -1 ≤ i ∧ i ≤ f.num_update_definitions - 1) ∧
    (visitOrder f.num_update_definitions).Pairwise (fun a b => b < a) ∧
    (visitOrder f.num_update_definitions).head? = some (f.num_update_definitions - 1) ∧
    (visitOrder f.num_update_definitions).getLast? = some (-1) := by
  have hall := (funcs_ok_iff d f).mp ⟨l, hs⟩
  have hl := funcs_ok d f hall
  rw [hs] at hl
  have hl2 : l = (visitOrder f.num_update_definitions).flatMap
      (entriesAt d.adjoints f.name) := Except.ok.inj hl
  refine ⟨⟨fun i => (find d.adjoints (f.name, i)).getD ⟨"", 0⟩, ?_, ?_⟩, ?_, ?_, ?_, ?_⟩
  · intro i h1 h2
    have := hall i h1 (by omega)
    cases hf : find d.adjoints (f.name, i) with
    | none => exact absurd hf this
    | some a => simp [hf]
  · rw [hl2]
    apply List.flatMap_congr
    intro i hi
    have hm := (mem_visitOrder _ _).mp hi
    have := hall i hm.1 hm.2
    unfold entriesAt
    cases hf : find d.adjoints (f.name, i) with
    | none => exact absurd hf this
    | some a => simp [hf]
  · intro i
    rw [mem_visitOrder]
    omega
  · exact visitOrder_descending _
  · rw [visitOrder_of_nonneg _ hk]
    rfl
  · exact visitOrder_getLast _ hk

theorem funcs_eq_concat_of_blocks_witness :
    (∃ bounded : Int → Func,
      (∀ i : Int, -1 ≤ i → i ≤ (1 : Int) - 1 →
        find [(("f", -1), ⟨"a", 0⟩), (("f", 0), ⟨"b", 0⟩), (("f_unbounded", 0), ⟨"c", 0⟩)]
          ("f", i) = some (bounded i)) ∧
      [(⟨"b", 0⟩ : Func), ⟨"c", 0⟩, ⟨"a", 0⟩] = (visitOrder 1).flatMap (fun i =>
        [bounded i] ++
          (find [(("f", -1), ⟨"a", 0⟩), (("f", 0), ⟨"b", 0⟩), (("f_unbounded", 0), ⟨"c", 0⟩)]
            ("f" ++ "_unbounded", i)).toList)) ∧
    (∀ i : Int, i ∈ visitOrder 1 ↔ -1 ≤ i ∧ i ≤ (1 : Int) - 1) ∧
    (visitOrder 1).Pairwise (fun a b => b < a) ∧
    (visitOrder 1).head? = some ((1 : Int) - 1) ∧
    (visitOrder 1).getLast? = some (-1) :=
  funcs_eq_concat_of_blocks
    ⟨[(("f", -1), ⟨"a", 0⟩), (("f", 0), ⟨"b", 0⟩), (("f_unbounded", 0), ⟨"c", 0⟩)]⟩
    ⟨"f", 1⟩ [⟨"b", 0⟩, ⟨"c", 0⟩, ⟨"a", 0⟩] (by decide)
    (by simp [funcs, funcsLoop, find])

end Halide.Derivative

namespace Halide.Derivative

/-- C3: when `f` has `k >= 0` update definitions and `d.funcs(f)` returns a
vector, its length is `k + 1` plus the number of indices `i` from `-1` to
`k - 1` whose unbounded key `(f.name() + "_unbounded", i)` is stored; hence it
is at least `k + 1`, at most `2 (k + 1)`, never empty, and exactly `k + 1` when
no unbounded key of `f` is stored. -/
theorem funcs_length (d : Derivative) (f : Func) (l : List Func)
    (hk : 0 ≤ f.num_update_definitions) (hs : funcs d f = Except.ok l) :
    (l.length : Int) = f.num_update_definitions + 1 +
      (((Finset.Icc (-1 : Int) (f.num_update_definitions - 1)).filter (fun i =>
        (find d.adjoints (f.name ++ "_unbounded", i)).isSome = true)).card : Int) ∧
    f.num_update_definitions + 1 ≤ (l.length : Int) ∧
    (l.length : Int) ≤ 2 * (f.num_update_definitions + 1) ∧
    l ≠ [] ∧
    ((∀ i : Int, -1 ≤ i → i ≤ f.num_update_definitions - 1 →
        find d.adjoints (f.name ++ "_unbounded", i) = none) →
      (l.length : Int) = f.num_update_definitions + 1) := by
  have hall := (funcs_ok_iff d f).mp ⟨l, hs⟩
  have hl := funcs_ok d f hall
  rw [hs] at hl
  have hl2 : l = (visitOrder f.num_update_definitions).flatMap
      (entriesAt d.adjoints f.name) := Except.ok.inj hl
  have hlen := length_entries d.adjoints f.name (visitOrder f.num_update_definitions)
    (fun i hi => hall i ((mem_visitOrder _ _).mp hi).1 ((mem_visitOrder _ _).mp hi).2)
  rw [← hl2, visitOrder_length] at hlen
  have hnodup : (visitOrder f.num_update_definitions).Nodup :=
    (visitOrder_descending _).imp (fun {a b} hab => by omega)
  have hcard : ((Finset.Icc (-1 : Int) (f.num_update_definitions - 1)).filter (fun i =>
        (find d.adjoints (f.name ++ "_unbounded", i)).isSome = true)).card =
      ((visitOrder f.num_update_definitions).filter (fun i =>
        (find d.adjoints (f.name ++ "_unbounded", i)).isSome)).length := by
    rw [← visitOrder_toFinset, ← List.toFinset_filter,
      List.toFinset_card_of_nodup (hnodup.filter _)]
  have hle := List.length_filter_le (fun i =>
    (find d.adjoints (f.name ++ "_unbounded", i)).isSome) (visitOrder f.num_update_definitions)
  rw [visitOrder_length] at hle
  rw [hcard]
  refine ⟨by omega, by omega, by omega, ?_, ?_⟩
  · intro hnil
    rw [hnil] at hlen
    simp only [List.length_nil] at hlen
    omega
  · intro hnone
    have hz : ((visitOrder f.num_update_definitions).filter (fun i =>
        (find d.adjoints (f.name ++ "_unbounded", i)).isSome)) = [] := by
      rw [List.filter_eq_nil_iff]
      intro i hi
      have hm := (mem_visitOrder _ _).mp hi
      rw [hnone i hm.1 (by omega)]
      simp
    rw [hz] at hlen
    simp only [List.length_nil] at hlen
    omega

theorem funcs_length_witness :
    (([(⟨"b", 0⟩ : Func), ⟨"c", 0⟩, ⟨"a", 0⟩]).length : Int) = (1 : Int) + 1 +
      (((Finset.Icc (-1 : Int) ((1 : Int) - 1)).filter (fun i =>
        (find [(("f", -1), ⟨"a", 0⟩), (("f", 0), ⟨"b", 0⟩), (("f_unbounded", 0), ⟨"c", 0⟩)]
          ("f" ++ "_unbounded", i)).isSome = true)).card : Int) ∧
    (1 : Int) + 1 ≤ (([(⟨"b", 0⟩ : Func), ⟨"c", 0⟩, ⟨"a", 0⟩]).length : Int) ∧
    (([(⟨"b", 0⟩ : Func), ⟨"c", 0⟩, ⟨"a", 0⟩]).length : Int) ≤ 2 * ((1 : Int) + 1) ∧
    [(⟨"b", 0⟩ : Func), ⟨"c", 0⟩, ⟨"a", 0⟩] ≠ [] ∧
    ((∀ i : Int, -1 ≤ i → i ≤ (1 : Int) - 1 →
        find [(("f", -1), ⟨"a", 0⟩), (("f", 0), ⟨"b", 0⟩), (("f_unbounded", 0), ⟨"c", 0⟩)]
          ("f" ++ "_unbounded", i) = none) →
      (([(⟨"b", 0⟩ : Func), ⟨"c", 0⟩, ⟨"a", 0⟩]).length : Int) = (1 : Int) + 1) :=
  funcs_length
    ⟨[(("f", -1), ⟨"a", 0⟩), (("f", 0), ⟨"b", 0⟩), (("f_unbounded", 0), ⟨"c", 0⟩)]⟩
    ⟨"f", 1⟩ [⟨"b", 0⟩, ⟨"c", 0⟩, ⟨"a", 0⟩] (by decide)
    (by simp [funcs, funcsLoop, find])

end Halide.Derivative

namespace Halide.Derivative

/-- C8: `d.funcs(f)` fails if and only if some bounded key `(f.name(), i)` with
`-1 <= i <= k - 1` is missing from `d.adjoints`.  The unbounded keys play no
part in that: when every bounded key is stored the call returns the vector in
which a missing unbounded key contributes nothing, and changing only other keys
never turns success into failure.  A failing call is the failed
`internal_assert` at a missing bounded key and returns no vector. -/
theorem funcs_fails_iff_bounded_key_missing (d : Derivative) (f : Func) :
    ((∃ e, funcs d f = Except.error e) ↔
      ∃ i : Int, -1 ≤ i ∧ i ≤ f.num_update_definitions - 1 ∧
        find d.adjoints (f.name, i) = none) ∧
    ((∀ i : Int, -1 ≤ i → i ≤ f.num_update_definitions - 1 →
        find d.adjoints (f.name, i) ≠ none) →
      funcs d f = Except.ok ((visitOrder f.num_update_definitions).flatMap (fun i =>
        (find d.adjoints (f.name, i)).toList ++
          (find d.adjoints (f.name ++ "_unbounded", i)).toList))) ∧
    (∀ d2 : Derivative,
      (∀ i : Int, -1 ≤ i → i ≤ f.num_update_definitions - 1 →
        find d2.adjoints (f.name, i) = find d.adjoints (f.name, i)) →
      ((∃ e, funcs d2 f = Except.error e) ↔ (∃ e, funcs d f = Except.error e))) ∧
    (∀ e, funcs d f = Except.error e →
      (∀ l, funcs d f ≠ Except.ok l) ∧
      ∃ i : Int, -1 ≤ i ∧ i ≤ f.num_update_definitions - 1 ∧
        find d.adjoints (f.name, i) = none ∧ e = Failure.internalAssert f.name i) := by
  have key : ∀ d' : Derivative, (∃ e, funcs d' f = Except.error e) ↔
      ∃ i : Int, -1 ≤ i ∧ i ≤ f.num_update_definitions - 1 ∧
        find d'.adjoints (f.name, i) = none := by
    intro d'
    constructor
    · rintro ⟨e, he⟩
      by_contra hno
      have hall : ∀ i : Int, -1 ≤ i → i < f.num_update_definitions →
          find d'.adjoints (f.name, i) ≠ none :=
        fun i h1 h2 hn => hno ⟨i, h1, by omega, hn⟩
      have hok := funcs_ok d' f hall
      rw [he] at hok
      exact Except.noConfusion hok
    · rintro ⟨i, h1, h2, h3⟩
      obtain ⟨i0, _, _, _, _, herr⟩ := funcs_error d' f ⟨i, h1, by omega, h3⟩
      exact ⟨_, herr⟩
  refine ⟨key d, ?_, ?_, ?_⟩
  · intro hall
    exact funcs_ok d f (fun i h1 h2 => hall i h1 (by omega))
  · intro d2 hagree
    rw [key d2, key d]
    constructor
    · rintro ⟨i, h1, h2, h3⟩
      exact ⟨i, h1, h2, by rw [← hagree i h1 h2]; exact h3⟩
    · rintro ⟨i, h1, h2, h3⟩
      exact ⟨i, h1, h2, by rw [hagree i h1 h2]; exact h3⟩
  · intro e he
    refine ⟨fun l hl => ?_, ?_⟩
    · rw [he] at hl
      exact Except.noConfusion hl
    · obtain ⟨i, h1, h2, h3⟩ := (key d).mp ⟨e, he⟩
      obtain ⟨i0, g1, g2, g3, _, herr⟩ := funcs_error d f ⟨i, h1, by omega, h3⟩
      rw [he] at herr
      exact ⟨i0, g1, by omega, g3, Except.error.inj herr⟩

/-- C8 at a concrete input: with the bounded key of update `0` missing the call
fails, on that key, although both unbounded keys are stored. -/
theorem funcs_fails_iff_bounded_key_missing_witness :
    (∃ e, funcs ⟨[(("f", -1), ⟨"a", 0⟩), (("f_unbounded", -1), ⟨"b", 0⟩),
        (("f_unbounded", 0), ⟨"c", 0⟩)]⟩ ⟨"f", 1⟩ = Except.error e) ∧
    funcs ⟨[(("f", -1), ⟨"a", 0⟩), (("f_unbounded", -1), ⟨"b", 0⟩),
        (("f_unbounded", 0), ⟨"c", 0⟩)]⟩ ⟨"f", 1⟩
      = Except.error (Failure.internalAssert "f" 0) :=
  ⟨(funcs_fails_iff_bounded_key_missing
      ⟨[(("f", -1), ⟨"a", 0⟩), (("f_unbounded", -1), ⟨"b", 0⟩),
        (("f_unbounded", 0), ⟨"c", 0⟩)]⟩ ⟨"f", 1⟩).1.mpr
      ⟨0, by decide, by decide, by decide⟩,
    by simp [funcs, funcsLoop, find]⟩

end Halide.Derivative

namespace Halide.Derivative

/-- C9 (counterexample): `g` named `"f_unbounded"` is a node other than `f`
named `"f"`; the two maps differ only in the entry recorded for the initial
definition of `g`, the entry `d2(g)` returns, and yet `funcs(f)` differs. -/
theorem funcs_changed_by_other_node :
    (⟨"f_unbounded", 0⟩ : Func).name ≠ (⟨"f", 0⟩ : Func).name ∧
    (∀ key : FuncKey, key ≠ ((⟨"f_unbounded", 0⟩ : Func).name, -1) →
      find [(("f", -1), ⟨"a", 0⟩)] key
        = find [(("f", -1), ⟨"a", 0⟩), (("f_unbounded", -1), ⟨"b", 0⟩)] key) ∧
    callDefault ⟨[(("f", -1), ⟨"a", 0⟩), (("f_unbounded", -1), ⟨"b", 0⟩)]⟩ ⟨"f_unbounded", 0⟩
      = Except.ok ⟨"b", 0⟩ ∧
    funcs ⟨[(("f", -1), ⟨"a", 0⟩)]⟩ ⟨"f", 0⟩ = Except.ok [⟨"a", 0⟩] ∧
    funcs ⟨[(("f", -1), ⟨"a", 0⟩), (("f_unbounded", -1), ⟨"b", 0⟩)]⟩ ⟨"f", 0⟩
      = Except.ok [⟨"a", 0⟩, ⟨"b", 0⟩] := by
  refine ⟨by decide, ?_, ?_, ?_, ?_⟩
  · intro key hkey
    have h2 : ¬ (("f_unbounded", (-1 : Int)) = key) := fun h => hkey h.symm
    simp only [find, h2, if_false]
  · simp [callDefault, call, find]
  · simp [funcs, funcsLoop, find]
  · simp [funcs, funcsLoop, find]

/-- C9 (amended): when two `Derivative`s differ only in entries recorded for
nodes `g` (under `g.name()` or `g.name() + "_unbounded"`) whose name is neither
`f.name()` nor `f.name() + "_unbounded"` and for which `g.name() + "_unbounded"`
is not `f.name()`, then `funcs(f)` has the same outcome on both. -/
theorem funcs_unchanged_by_other_nodes (f : Func) (d1 d2 : Derivative)
    (others : String → Prop)
    (hothers : ∀ g, others g →
      g ≠ f.name ∧ g ≠ f.name ++ "_unbounded" ∧ g ++ "_unbounded" ≠ f.name)
    (hdiff : ∀ key : FuncKey,
      (∀ g, others g → key.1 ≠ g ∧ key.1 ≠ g ++ "_unbounded") →
      find d1.adjoints key = find d2.adjoints key) :
    funcs d1 f = funcs d2 f := by
  apply funcs_congr
  intro i _ _
  constructor
  · apply hdiff
    intro g hg
    obtain ⟨h1, _, h3⟩ := hothers g hg
    exact ⟨fun h => h1 h.symm, fun h => h3 h.symm⟩
  · apply hdiff
    intro g hg
    obtain ⟨h1, h2, _⟩ := hothers g hg
    exact ⟨fun h => h2 h.symm, fun h => h1 (append_right_cancel _ _ _ h).symm⟩

theorem funcs_unchanged_by_other_nodes_witness :
    funcs ⟨[(("f", -1), ⟨"a", 0⟩)]⟩ ⟨"f", 0⟩
      = funcs ⟨[(("g", -1), ⟨"b", 0⟩), (("f", -1), ⟨"a", 0⟩)]⟩ ⟨"f", 0⟩ :=
  funcs_unchanged_by_other_nodes ⟨"f", 0⟩ ⟨[(("f", -1), ⟨"a", 0⟩)]⟩
    ⟨[(("g", -1), ⟨"b", 0⟩), (("f", -1), ⟨"a", 0⟩)]⟩ (fun g => g = "g")
    (by
      intro g hg
      subst hg
      decide)
    (by
      intro key hkey
      have h1 : key.1 ≠ "g" := (hkey "g" rfl).1
      have h2 : ¬ (("g", (-1 : Int)) = key) := fun h => h1 (by rw [← h])
      simp only [find, h2, if_false])

end Halide.Derivative

namespace Halide.Derivative

/-- C10: for `f` with `k >= 0` update definitions, `d.funcs(f)` agrees with the
chain built from single lookups: it returns a vector exactly when `d(f, i, true)`
succeeds for every `i` from `-1` to `k - 1`, and the vector is then the one
built by visiting `i = k - 1, ..., -1` and emitting `d(f, i, true)` followed by
`d(f, i, false)` whenever that lookup succeeds; its first element is
`d(f, k - 1, true)`; and entries of `d.adjoints` under an index outside
`[-1, k - 1]` have no effect on the outcome. -/
theorem funcs_agrees_with_call (d : Derivative) (f : Func)
    (hk : 0 ≤ f.num_update_definitions) :
    (funcs d f).toOption = chainByCall d f ∧
    ((∃ l, funcs d f = Except.ok l) ↔
      ∀ i : Int, -1 ≤ i → i ≤ f.num_update_definitions - 1 →
        ∃ v, call d f i true = Except.ok v) ∧
    (∀ l, funcs d f = Except.ok l →
      l = (visitOrder f.num_update_definitions).flatMap (fun i =>
        (call d f i true).toOption.toList ++ (call d f i false).toOption.toList) ∧
      ∃ v, call d f (f.num_update_definitions - 1) true = Except.ok v ∧
        l.head? = some v) ∧
    (∀ d2 : Derivative,
      (∀ key : FuncKey, -1 ≤ key.2 → key.2 ≤ f.num_update_definitions - 1 →
        find d2.adjoints key = find d.adjoints key) →
      funcs d2 f = funcs d f) := by
  have hfun : (fun i => (call d f i true).toOption.toList ++
      (call d f i false).toOption.toList) = entriesAt d.adjoints f.name := by
    funext i
    rw [call_bounded_toOption, call_unbounded_toOption]
    rfl
  have hcall : ∀ i : Int, (∃ v, call d f i true = Except.ok v) ↔
      find d.adjoints (f.name, i) ≠ none := by
    intro i
    simp only [call, Bool.not_true, Bool.false_eq_true, if_false]
    cases find d.adjoints (f.name, i) <;> simp
  refine ⟨?_, ?_, ?_, ?_⟩
  · unfold chainByCall
    rw [hfun]
    by_cases hall : ∀ i : Int, -1 ≤ i → i < f.num_update_definitions →
        find d.adjoints (f.name, i) ≠ none
    · have hcond : (visitOrder f.num_update_definitions).all
          (fun i => (call d f i true).toOption.isSome) = true := by
        rw [List.all_eq_true]
        intro i hi
        have hm := (mem_visitOrder _ _).mp hi
        rw [call_bounded_toOption]
        exact Option.isSome_iff_ne_none.mpr (hall i hm.1 hm.2)
      rw [funcs_ok d f hall, hcond]
      rfl
    · have hcond : ¬ ((visitOrder f.num_update_definitions).all
          (fun i => (call d f i true).toOption.isSome) = true) := by
        rw [List.all_eq_true]
        intro hc
        apply hall
        intro i h1 h2
        have := hc i ((mem_visitOrder _ _).mpr ⟨h1, h2⟩)
        rw [call_bounded_toOption] at this
        exact Option.isSome_iff_ne_none.mp this
      have hex : ∃ i : Int, -1 ≤ i ∧ i < f.num_update_definitions ∧
          find d.adjoints (f.name, i) = none := by
        by_contra hno
        exact hall (fun i h1 h2 hn => hno ⟨i, h1, h2, hn⟩)
      obtain ⟨i0, _, _, _, _, herr⟩ := funcs_error d f hex
      rw [herr, if_neg hcond]
      rfl
  · rw [funcs_ok_iff]
    constructor
    · intro h i h1 h2
      exact (hcall i).mpr (h i h1 (by omega))
    · intro h i h1 h2
      exact (hcall i).mp (h i h1 (by omega))
  · intro l hl
    have hall := (funcs_ok_iff d f).mp ⟨l, hl⟩
    have hok := funcs_ok d f hall
    rw [hl] at hok
    have hl2 : l = (visitOrder f.num_update_definitions).flatMap
        (entriesAt d.adjoints f.name) := Except.ok.inj hok
    refine ⟨by rw [hfun]; exact hl2, ?_⟩
    have hlast := hall (f.num_update_definitions - 1) (by omega) (by omega)
    cases hf : find d.adjoints (f.name, f.num_update_definitions - 1) with
    | none => exact absurd hf hlast
    | some a =>
      refine ⟨a, ?_, ?_⟩
      · simp [call, hf]
      · rw [hl2, visitOrder_of_nonneg _ hk, List.flatMap_cons]
        unfold entriesAt
        rw [hf]
        rfl
  · intro d2 hagree
    apply funcs_congr
    intro i h1 h2
    exact ⟨hagree (f.name, i) h1 (by show i ≤ _; omega),
      hagree (f.name ++ "_unbounded", i) h1 (by show i ≤ _; omega)⟩

end Halide.Derivative

namespace Halide.Derivative

theorem funcs_agrees_with_call_witness :
    (funcs ⟨[(("f", -1), ⟨"a", 0⟩), (("f", 0), ⟨"b", 0⟩), (("f_unbounded", 0), ⟨"c", 0⟩),
        (("f", 7), ⟨"z", 0⟩)]⟩ ⟨"f", 1⟩).toOption
      = chainByCall ⟨[(("f", -1), ⟨"a", 0⟩), (("f", 0), ⟨"b", 0⟩),
          (("f_unbounded", 0), ⟨"c", 0⟩), (("f", 7), ⟨"z", 0⟩)]⟩ ⟨"f", 1⟩ ∧
    funcs ⟨[(("f", -1), ⟨"a", 0⟩), (("f", 0), ⟨"b", 0⟩), (("f_unbounded", 0), ⟨"c", 0⟩),
        (("f", 7), ⟨"z", 0⟩)]⟩ ⟨"f", 1⟩
      = Except.ok [⟨"b", 0⟩, ⟨"c", 0⟩, ⟨"a", 0⟩] :=
  ⟨(funcs_agrees_with_call
      ⟨[(("f", -1), ⟨"a", 0⟩), (("f", 0), ⟨"b", 0⟩), (("f_unbounded", 0), ⟨"c", 0⟩),
        (("f", 7), ⟨"z", 0⟩)]⟩ ⟨"f", 1⟩ (by decide)).1,
    by simp [funcs, funcsLoop, find]⟩

end Halide.Derivative

namespace Halide.Derivative

theorem call_succeeds_iff_key_stored_witness :
    call ⟨[(("f", -1), ⟨"a", 0⟩), (("f", 0), ⟨"b", 0⟩), (("f_unbounded", 0), ⟨"c", 0⟩)]⟩
        ⟨"f", 1⟩ 0 false = Except.ok ⟨"c", 0⟩ ∧
    callDefault ⟨[(("f", -1), ⟨"a", 0⟩), (("f", 0), ⟨"b", 0⟩), (("f_unbounded", 0), ⟨"c", 0⟩)]⟩
        ⟨"f", 1⟩ = Except.ok ⟨"a", 0⟩ ∧
    call ⟨[(("f", -1), ⟨"a", 0⟩), (("f", 0), ⟨"b", 0⟩), (("f_unbounded", 0), ⟨"c", 0⟩)]⟩
        ⟨"f", 1⟩ (-1) false = Except.error Failure.assertion :=
  ⟨((call_succeeds_iff_key_stored
      ⟨[(("f", -1), ⟨"a", 0⟩), (("f", 0), ⟨"b", 0⟩), (("f_unbounded", 0), ⟨"c", 0⟩)]⟩
      ⟨"f", 1⟩ 0 false).2.1 ⟨"c", 0⟩).mpr (by decide),
   ((call_succeeds_iff_key_stored
      ⟨[(("f", -1), ⟨"a", 0⟩), (("f", 0), ⟨"b", 0⟩), (("f_unbounded", 0), ⟨"c", 0⟩)]⟩
      ⟨"f", 1⟩ 0 false).2.2.2.2.1 ⟨"a", 0⟩).mpr (by decide),
   (call_succeeds_iff_key_stored
      ⟨[(("f", -1), ⟨"a", 0⟩), (("f", 0), ⟨"b", 0⟩), (("f_unbounded", 0), ⟨"c", 0⟩)]⟩
      ⟨"f", 1⟩ (-1) false).2.2.1.mpr (by decide)⟩

theorem callBuffer_is_lookup_of_initial_key_witness :
    callBuffer ⟨[(("f", -1), ⟨"a", 0⟩), (("f", 0), ⟨"b", 0⟩)]⟩ ⟨"f"⟩ = Except.ok ⟨"a", 0⟩ ∧
    callBuffer ⟨[(("f", -1), ⟨"a", 0⟩), (("f", 0), ⟨"b", 0⟩)]⟩ ⟨"f"⟩
      = callDefault ⟨[(("f", -1), ⟨"a", 0⟩), (("f", 0), ⟨"b", 0⟩)]⟩ ⟨"f", 1⟩ ∧
    callBuffer ⟨[(("f", -1), ⟨"a", 0⟩), (("f", 0), ⟨"b", 0⟩)]⟩ ⟨"g"⟩
      = Except.error Failure.assertion :=
  ⟨((callBuffer_is_lookup_of_initial_key
      ⟨[(("f", -1), ⟨"a", 0⟩), (("f", 0), ⟨"b", 0⟩)]⟩ ⟨"f"⟩).2.1 ⟨"a", 0⟩).mpr (by decide),
   ((callBuffer_is_lookup_of_initial_key
      ⟨[(("f", -1), ⟨"a", 0⟩), (("f", 0), ⟨"b", 0⟩)]⟩ ⟨"f"⟩).2.2.2 ⟨"f", 1⟩ rfl).1,
   (callBuffer_is_lookup_of_initial_key
      ⟨[(("f", -1), ⟨"a", 0⟩), (("f", 0), ⟨"b", 0⟩)]⟩ ⟨"g"⟩).2.2.1.mpr (by decide)⟩

theorem lookupKey_eq_iff_witness :
    lookupKey "f" 0 false ≠ lookupKey "g" 0 false ∧
    lookupKey "f" 0 true ≠ lookupKey "f" 0 false := by
  constructor
  · intro h
    rcases (lookupKey_eq_iff "f" "g" 0 0 false false).mp h with
      ⟨h1, _⟩ | ⟨_, h2, _⟩ | ⟨_, _, h3, _⟩
    · exact absurd h1 (by decide)
    · exact absurd h2 (by decide)
    · exact absurd h3 (by decide)
  · intro h
    rcases (lookupKey_eq_iff "f" "f" 0 0 true false).mp h with
      ⟨_, _, h1⟩ | ⟨_, _, _, h2⟩ | ⟨_, h3, _⟩
    · exact absurd h1 (by decide)
    · exact absurd h2 (by decide)
    · exact absurd h3 (by decide)

end Halide.Derivative
